import Mathlib

/-!
Shallow embedding of `fastapi_versioning/versioning.py` (repository
`rummens/fastapi-versioning`) and proofs about its route-composition
algorithm: version grouping, the `unique_routes` accumulator, mounting of
per-version sub-applications, the `/latest` alias, the unprefixed redirect
alias, documentation placeholder endpoints, OpenAPI tag filtering, and the
parent application's cached schema generator.
-/

/-- An API version: a `(major, minor)` pair, ordered lexicographically
as Python orders integer tuples. -/
abbrev Version := Nat × Nat

/-- Strict lexicographic order on versions (Python tuple `<`). -/
def vlt (a b : Version) : Bool :=
  decide (a.1 < b.1 ∨ (a.1 = b.1 ∧ a.2 < b.2))

/-- Lexicographic order-or-equal on versions (Python tuple `<=`). -/
def vle (a b : Version) : Bool :=
  decide (a.1 < b.1 ∨ (a.1 = b.1 ∧ a.2 ≤ b.2))

/-- One registered route (`fastapi.routing.APIRoute` as consumed by
`VersionedFastAPI`): path, HTTP methods, the optional `tags` attribute
(`hasTags` models `hasattr(route, "tags")`), the `_api_version` attribute
attached by the `version` decorator (`none` means the attribute is absent),
and an opaque handler identity. -/
structure Route where
  path : String
  methods : List String
  hasTags : Bool
  tags : List String
  ver : Option Version
  handlerId : Nat
deriving DecidableEq, Repr

/-- Source `version_to_route`: `getattr(api_route.endpoint, "_api_version",
default_version)` — the version attached to the endpoint, or the default
version when the attribute is absent. -/
def resolvedVersion (dflt : Version) (r : Route) : Version :=
  r.ver.getD dflt

/-- The dictionary keys `route.path + "|" + method` written for a route,
one per HTTP method of the route. -/
def routeKeys (r : Route) : List String :=
  r.methods.map (fun m => r.path ++ "|" ++ m)

/-- The `unique_routes` dictionary: an insertion-ordered association list,
as Python dictionaries are. -/
abbrev RouteDict := List (String × Route)

/-- Python dict assignment `d[k] = v`: replace the value in place when the
key is present (keeping its position), otherwise append at the end. -/
def dictInsert : RouteDict → String → Route → RouteDict
  | [], k, v => [(k, v)]
  | p :: d, k, v => if p.1 = k then (k, v) :: d else p :: dictInsert d k v

/-- Python dict lookup `d[k]`, as an option. -/
def dictLookup : RouteDict → String → Option Route
  | [], _ => none
  | p :: d, k => if p.1 = k then some p.2 else dictLookup d k

/-- Python `dict.values()` in insertion order. -/
def dictValues (d : RouteDict) : List Route := d.map Prod.snd

/-- The writes `unique_routes[route.path + "|" + method] = route`
performed for one route, in the order its methods are iterated. -/
def routeWrites (r : Route) : List (String × Route) :=
  (routeKeys r).map (fun k => (k, r))

/-- All dict writes of one version bucket, in registration order. -/
def bucketWrites (b : List Route) : List (String × Route) :=
  b.flatMap routeWrites

/-- Perform a list of dict writes from left to right. -/
def applyWrites (d : RouteDict) (ws : List (String × Route)) : RouteDict :=
  ws.foldl (fun d w => dictInsert d w.1 w.2) d

/-- The last write to key `k` in a list of writes, if any. -/
def lastWrite : List (String × Route) → String → Option Route
  | [], _ => none
  | w :: ws, k =>
    match lastWrite ws k with
    | some r => some r
    | none => if w.1 = k then some w.2 else none

/-- Insert a version into a strictly ascending sorted list, dropping
duplicates; used to model Python's `sorted` over the distinct dict keys. -/
def insertVersionSorted (v : Version) : List Version → List Version
  | [] => [v]
  | w :: ws =>
    if vlt v w then v :: w :: ws
    else if v = w then w :: ws
    else w :: insertVersionSorted v ws

/-- Model of `sorted(version_route_mapping.keys())`: the ascending list of distinct
resolved versions. -/
def sortedVersions (l : List Version) : List Version :=
  l.foldr insertVersionSorted []

/-- The `defaultdict` bucket of one version, in registration order. -/
def bucketOf (dflt : Version) (routes : List Route) (v : Version) : List Route :=
  routes.filter (fun r => decide (resolvedVersion dflt r = v))

/-- Grouping plus sorting: the ascending list of `(version, bucket)` pairs
that the main loop of `VersionedFastAPI` iterates over. -/
def groupRoutes (dflt : Version) (routes : List Route) :
    List (Version × List Route) :=
  (sortedVersions (routes.map (resolvedVersion dflt))).map
    (fun v => (v, bucketOf dflt routes v))

/-- All `unique_routes` writes performed while processing the versions
`≤ V` in ascending order. -/
def writesUpTo (dflt : Version) (routes : List Route) (V : Version) :
    List (String × Route) :=
  ((groupRoutes dflt routes).filter (fun p => vle p.1 V)).flatMap
    (fun p => bucketWrites p.2)

/-- The state of `unique_routes` after the accumulator has processed all
versions `≤ V` in ascending order. -/
def accumUpTo (dflt : Version) (routes : List Route) (V : Version) : RouteDict :=
  applyWrites [] (writesUpTo dflt routes V)

/-- An OpenAPI tag descriptor (`{"name": ..., "description": ...}`). -/
structure Tag where
  name : String
  description : String
deriving DecidableEq, Repr

/-- Duck-typed access to a route's `tags`: `tagsOf r = none` models a route
object without a `tags` attribute (`hasattr(route, "tags")` false);
otherwise the test is `tag["name"] in route.tags`. -/
def tagMatchesRoute {α : Type} (tagsOf : α → Option (List String))
    (tag : Tag) (r : α) : Bool :=
  match tagsOf r with
  | some ts => decide (tag.name ∈ ts)
  | none => false

/-- Source `remove_non_present_openapi_tags`: the source appends `tag` to the
result once per route whose tag set contains its name (nested loops over
tags then routes), preserving catalog order. -/
def remove_non_present_openapi_tags {α : Type}
    (tagsOf : α → Option (List String)) (tags : List Tag) (routes : List α) :
    List Tag :=
  tags.flatMap
    (fun tag => (routes.filter (tagMatchesRoute tagsOf tag)).map (fun _ => tag))

/-- Real `APIRoute` objects always expose `tags`. -/
def routeTagsOf (r : Route) : Option (List String) :=
  if r.hasTags then some r.tags else none

/-- The error raised by `doc_endpoint_response`. -/
structure HTTPException where
  status_code : Nat
  detail_msg : String
deriving DecidableEq, Repr

deriving instance DecidableEq for Except

/-- Source `doc_endpoint_response` raises `HTTPException(status_code=400, ...)`
on every invocation; it never returns normally. -/
def doc_endpoint_response : Except HTTPException Unit :=
  Except.error
    ⟨400, "Endpoint only exits for documentation purposes. It has no logic."⟩

/-- A documentation-only placeholder route (`APIRoute(path,
doc_endpoint_response, name=..., tags=..., description=...)`). -/
structure DocRoute where
  path : String
  name : String
  tags : List String
  description : String
  handler : Except HTTPException Unit
deriving DecidableEq, Repr

/-- Synthesized `APIRoute` placeholder objects always expose `tags`. -/
def docTagsOf (d : DocRoute) : Option (List String) := some d.tags

/-- The three built-in tag descriptors appended to the caller's catalog. -/
def OPENAPI_TAGS_VERSIONED_ENDPOINTS : List Tag :=
  [⟨"Redirects",
    "Doc Endpoints to show which automatic Redirects are active. Redirects will add new routes automatically based on given ruleset and version."⟩,
   ⟨"Versions", "List of versions current available."⟩,
   ⟨"Documentations",
    "Link to the different documentation styles (Swagger and Redoc) for each version."⟩]

/-- Replace every non-overlapping occurrence of `pat` in a character list
from left to right; the fuel argument (instantiated with the list length)
only makes the recursion structural. -/
def replaceChars (pat rep : List Char) : Nat → List Char → List Char
  | _, [] => []
  | 0, s => s
  | fuel + 1, c :: cs =>
    if pat.isPrefixOf (c :: cs) then
      rep ++ replaceChars pat rep fuel ((c :: cs).drop pat.length)
    else
      c :: replaceChars pat rep fuel cs

/-- Python `str.replace` on strings (left-to-right, non-overlapping). -/
def pyReplace (s pat rep : String) : String :=
  ⟨replaceChars pat.data rep.data s.data.length s.data⟩

/-- Template rendering (`"...".format(major=major, minor=minor)`) for the
`{major}`/`{minor}` placeholders used by the prefix and version formats. -/
def render (template : String) (v : Version) : String :=
  pyReplace (pyReplace template "{major}" (toString v.1)) "{minor}" (toString v.2)

/-- One mounted per-version sub-application: its display version string,
the `unique_routes` snapshot it was built from, its appended route list
(`unique_routes.values()`), and its filtered tag catalog. -/
structure SubApp where
  title : String
  description : String
  semver : String
  routeMap : RouteDict
  routes : List Route
  openapi_tags : List Tag
deriving DecidableEq, Repr

/-- Build the `FastAPI` sub-application for one version from the current
`unique_routes` state. -/
def mkSubApp (title desc vfmt : String) (tags : List Tag) (v : Version)
    (uniq : RouteDict) : SubApp :=
  { title := title
    description := desc
    semver := render vfmt v
    routeMap := uniq
    routes := dictValues uniq
    openapi_tags :=
      remove_non_present_openapi_tags routeTagsOf tags (dictValues uniq) }

/-- The `"/*"` placeholder documenting the unprefixed redirect alias. -/
def noVersionDoc (semver : String) : DocRoute :=
  ⟨"/*", "No Version", ["Redirects"],
   "Requests made to endpoint without version (i.e. directly to `/*`) will be redirected to version "
     ++ semver ++ " (i.e. `/" ++ semver ++ "/*`)",
   doc_endpoint_response⟩

/-- The `"/latest/*"` placeholder documenting the latest alias. -/
def latestDoc (semver : String) : DocRoute :=
  ⟨"/latest/*", "Latest", ["Redirects"],
   "Requests made to endpoint `/latest/*`) will be redirected to latest version, which is "
     ++ semver ++ " (i.e. `/" ++ semver ++ "/*`)",
   doc_endpoint_response⟩

/-- The three per-version placeholders (schema document, Swagger, Redoc). -/
def docEntriesForVersion (pfx semver : String) : List DocRoute :=
  [⟨pfx ++ "/openapi.json", semver, ["Versions"], "", doc_endpoint_response⟩,
   ⟨pfx ++ "/docs", semver ++ " Swagger", ["Documentations"], "",
    doc_endpoint_response⟩,
   ⟨pfx ++ "/redoc", semver ++ " Redoc", ["Documentations"], "",
    doc_endpoint_response⟩]

/-- Everything produced by the main per-version loop of
`VersionedFastAPI`: the final `unique_routes` state, the mounted
sub-applications in mounting order, the routes appended unprefixed to the
parent (redirect alias), and the placeholder endpoints in append order. -/
structure BuildResult where
  uniq : RouteDict
  mounts : List (String × SubApp)
  rootRoutes : List Route
  docEndpoints : List DocRoute
deriving Repr

/-- The main loop of `VersionedFastAPI`: walk the sorted `(version,
bucket)` pairs, write every bucket route into `unique_routes`, snapshot the
dictionary into a mounted sub-application, duplicate the snapshot
unprefixed when the version equals `redirect_empty_to_version`, and append
the documentation placeholders. -/
def buildVersions (title desc vfmt pfmt : String) (tags : List Tag)
    (rd : Option Version) : RouteDict → List (Version × List Route) →
    BuildResult
  | d, [] => ⟨d, [], [], []⟩
  | d, (v, b) :: rest =>
    let d' := applyWrites d (bucketWrites b)
    let pfx := render pfmt v
    let semver := render vfmt v
    let sub := mkSubApp title desc vfmt tags v d'
    let res := buildVersions title desc vfmt pfmt tags rd d' rest
    ⟨res.uniq,
     (pfx, sub) :: res.mounts,
     (if rd = some v then dictValues d' else []) ++ res.rootRoutes,
     ((if rd = some v then [noVersionDoc semver] else [])
        ++ docEntriesForVersion pfx semver)
       ++ res.docEndpoints⟩

/-- The assembled parent application: mounted sub-applications (prefix
paired with sub-application), routes appended unprefixed to the parent's
own route table, the placeholder endpoints, the internal `openapi_tags`
list after the `+=` of the built-in descriptors, and the final content of
the caller-owned tag list (`none` when the caller passed `None`, in which
case no caller state was touched; the `+=` mutates the caller's list in
place otherwise). -/
structure ParentApp where
  title : String
  mounts : List (String × SubApp)
  rootRoutes : List Route
  docEndpoints : List DocRoute
  openapiTags : List Tag
  callerTagsAfter : Option (List Tag)
deriving Repr

/-- Source `VersionedFastAPI`: the whole composition. Returns `none` exactly when
the Python function raises before returning: with an empty route
collection the per-version loop never binds its loop variable, so the
`enable_latest` branch raises `UnboundLocalError` reading `version`. -/
def VersionedFastAPI (appTitle appDesc : String) (routes : List Route)
    (version_format pfx_format : String) (default_version : Version)
    (enable_latest : Bool) (redirect_empty_to_version : Option Version)
    (openapi_tags : Option (List Tag)) : Option ParentApp :=
  let tags := openapi_tags.getD [] ++ OPENAPI_TAGS_VERSIONED_ENDPOINTS
  let buckets := groupRoutes default_version routes
  let built := buildVersions appTitle appDesc version_format pfx_format tags
    redirect_empty_to_version [] buckets
  let callerAfter := openapi_tags.map (· ++ OPENAPI_TAGS_VERSIONED_ENDPOINTS)
  if enable_latest then
    match (buckets.map Prod.fst).getLast? with
    | none => none
    | some vmax =>
      some
        { title := appTitle
          mounts := built.mounts
            ++ [("/latest", mkSubApp appTitle appDesc version_format tags vmax
                  built.uniq)]
          rootRoutes := built.rootRoutes
          docEndpoints := built.docEndpoints
            ++ [latestDoc (render version_format vmax)]
          openapiTags := tags
          callerTagsAfter := callerAfter }
  else
    some
      { title := appTitle
        mounts := built.mounts
        rootRoutes := built.rootRoutes
        docEndpoints := built.docEndpoints
        openapiTags := tags
        callerTagsAfter := callerAfter }

/-- The document produced by `get_openapi` for the parent application,
recording exactly the inputs the source passes to it. -/
structure OpenApiSchema where
  title : String
  version : String
  description : String
  routes : List DocRoute
  tags : List Tag
deriving DecidableEq, Repr

/-- Call to `get_openapi` as invoked for the parent application. -/
def get_openapi (title version description : String) (routes : List DocRoute)
    (tags : List Tag) : OpenApiSchema :=
  ⟨title, version, description, routes, tags⟩

/-- The description amendment made for the parent document. -/
def parentDescription (desc : String) : String :=
  desc ++ "\n This page only includes an overview of available versions of this API. Refer to the documentation of a specific version for the actual documentation, e.g. `/v1.0/redoc`"

/-- Source `custom_openapi_for_parent_app`: given the cached
`parent_app.openapi_schema` (`none` when unset), return the served
document and the cache afterwards. A set cache is returned as is; an unset
cache is filled from only the placeholder endpoints and the filtered tag
catalog. -/
def custom_openapi_for_parent_app (p : ParentApp)
    (parentVersion parentDesc : String) (cached : Option OpenApiSchema) :
    OpenApiSchema × Option OpenApiSchema :=
  match cached with
  | some s => (s, some s)
  | none =>
    let s := get_openapi p.title parentVersion (parentDescription parentDesc)
      p.docEndpoints
      (remove_non_present_openapi_tags docTagsOf p.openapiTags p.docEndpoints)
    (s, some s)

/-! Order lemmas for lexicographic version comparison. -/

theorem vle_refl (a : Version) : vle a a = true := by
  simp [vle]

theorem vlt_irrefl (a : Version) : vlt a a = false := by
  simp [vlt]

theorem vle_trans {a b c : Version} (h₁ : vle a b = true) (h₂ : vle b c = true) :
    vle a c = true := by
  simp only [vle, decide_eq_true_eq] at *
  omega

theorem vlt_trans {a b c : Version} (h₁ : vlt a b = true) (h₂ : vlt b c = true) :
    vlt a c = true := by
  simp only [vlt, decide_eq_true_eq] at *
  omega

theorem vle_of_vlt {a b : Version} (h : vlt a b = true) : vle a b = true := by
  simp only [vlt, vle, decide_eq_true_eq] at *
  omega

theorem vlt_of_not_vle {a b : Version} (h : vle a b = false) : vlt b a = true := by
  simp only [vlt, vle, decide_eq_false_iff_not, decide_eq_true_eq] at *
  omega

theorem not_vle_of_vlt {a b : Version} (h : vlt a b = true) : vle b a = false := by
  simp only [vlt, vle, decide_eq_false_iff_not, decide_eq_true_eq] at *
  omega

theorem vlt_of_not_vlt_of_ne {a b : Version} (h : vlt a b = false) (hne : a ≠ b) :
    vlt b a = true := by
  obtain ⟨a1, a2⟩ := a
  obtain ⟨b1, b2⟩ := b
  have hne2 : a1 ≠ b1 ∨ a2 ≠ b2 := by
    by_contra hc
    push_neg at hc
    exact hne (by rw [hc.1, hc.2])
  simp only [vlt, decide_eq_false_iff_not, decide_eq_true_eq] at h ⊢
  push_neg at h
  rcases hne2 with h1 | h2 <;> omega

theorem ne_of_vlt {a b : Version} (h : vlt a b = true) : a ≠ b := by
  intro he
  subst he
  simp [vlt_irrefl] at h

theorem vlt_of_vle_of_vlt {a b c : Version} (h₁ : vle a b = true)
    (h₂ : vlt b c = true) : vlt a c = true := by
  simp only [vlt, vle, decide_eq_true_eq] at *
  omega

/-! Lemmas about the dictionary model of `unique_routes`. -/

theorem dictLookup_dictInsert (d : RouteDict) (k : String) (v : Route)
    (k' : String) :
    dictLookup (dictInsert d k v) k' =
      if k = k' then some v else dictLookup d k' := by
  induction d with
  | nil =>
    simp only [dictInsert, dictLookup]
  | cons p d ih =>
    by_cases hp : p.1 = k
    · simp only [dictInsert, if_pos hp, dictLookup]
      by_cases hk : k = k'
      · rw [if_pos hk, if_pos hk]
      · rw [if_neg hk, if_neg hk, if_neg (fun h : p.1 = k' => hk (hp ▸ h))]
    · simp only [dictInsert, if_neg hp, dictLookup, ih]
      by_cases hpk : p.1 = k'
      · have hk : ¬k = k' := fun h => hp (h ▸ hpk)
        rw [if_pos hpk, if_neg hk, if_pos hpk]
      · rw [if_neg hpk, if_neg hpk]

theorem dictLookup_applyWrites (ws : List (String × Route)) (d : RouteDict)
    (k : String) :
    dictLookup (applyWrites d ws) k =
      match lastWrite ws k with
      | some r => some r
      | none => dictLookup d k := by
  induction ws generalizing d with
  | nil => simp [applyWrites, lastWrite]
  | cons w ws ih =>
    show dictLookup (applyWrites (dictInsert d w.1 w.2) ws) k = _
    rw [ih]
    cases h : lastWrite ws k with
    | some r => simp [lastWrite, h]
    | none =>
      rw [dictLookup_dictInsert]
      simp only [lastWrite, h]
      by_cases hk : w.1 = k
      · simp [hk]
      · simp [hk]

theorem lastWrite_append (ws₁ ws₂ : List (String × Route)) (k : String) :
    lastWrite (ws₁ ++ ws₂) k =
      match lastWrite ws₂ k with
      | some r => some r
      | none => lastWrite ws₁ k := by
  induction ws₁ with
  | nil =>
    simp only [List.nil_append]
    cases lastWrite ws₂ k <;> simp [lastWrite]
  | cons w ws ih =>
    show lastWrite (w :: (ws ++ ws₂)) k = _
    simp only [lastWrite, ih]
    cases lastWrite ws₂ k <;> cases lastWrite ws k <;> simp [lastWrite]

theorem lastWrite_mem {ws : List (String × Route)} {k : String} {r : Route}
    (h : lastWrite ws k = some r) : (k, r) ∈ ws := by
  induction ws with
  | nil => simp [lastWrite] at h
  | cons w ws ih =>
    obtain ⟨w1, w2⟩ := w
    simp only [lastWrite] at h
    cases hw : lastWrite ws k with
    | some r' =>
      rw [hw] at h
      cases h
      exact List.mem_cons_of_mem _ (ih hw)
    | none =>
      rw [hw] at h
      by_cases hk : w1 = k
      · simp only [if_pos hk] at h
        cases h
        subst hk
        exact List.mem_cons_self _ _
      · simp [hk] at h

theorem lastWrite_eq_none_iff (ws : List (String × Route)) (k : String) :
    lastWrite ws k = none ↔ ∀ w ∈ ws, w.1 ≠ k := by
  induction ws with
  | nil => simp [lastWrite]
  | cons w ws ih =>
    simp only [lastWrite, List.mem_cons]
    cases h : lastWrite ws k with
    | some r =>
      constructor
      · intro hc
        simp at hc
      · intro hall
        exact ((hall (k, r) (Or.inr (lastWrite_mem h))) rfl).elim
    | none =>
      by_cases hk : w.1 = k
      · rw [if_pos hk]
        constructor
        · intro hc
          simp at hc
        · intro hall
          exact ((hall w (Or.inl rfl)) hk).elim
      · rw [if_neg hk]
        constructor
        · intro _ x hx
          rcases hx with rfl | hx
          · exact hk
          · exact (ih.mp h) x hx
        · intro _
          rfl

theorem lastWrite_isSome_iff (ws : List (String × Route)) (k : String) :
    (∃ r, lastWrite ws k = some r) ↔ ∃ w ∈ ws, w.1 = k := by
  cases h : lastWrite ws k with
  | some r =>
    simp only [Option.some.injEq]
    constructor
    · intro _
      exact ⟨(k, r), lastWrite_mem h, rfl⟩
    · intro _
      exact ⟨r, rfl⟩
  | none =>
    rw [lastWrite_eq_none_iff] at h
    constructor
    · intro ⟨r, hr⟩
      cases hr
    · intro ⟨w, hw, hk⟩
      exact (h w hw hk).elim

/-! Lemmas about the writes generated for routes and buckets. -/

theorem mem_bucketWrites (b : List Route) (w : String × Route) :
    w ∈ bucketWrites b ↔ w.2 ∈ b ∧ w.1 ∈ routeKeys w.2 := by
  obtain ⟨k, r⟩ := w
  simp only [bucketWrites, routeWrites, List.mem_flatMap, List.mem_map]
  constructor
  · intro ⟨r', hr', k', hk', he⟩
    cases he
    exact ⟨hr', hk'⟩
  · intro ⟨hr, hk⟩
    exact ⟨r, hr, k, hk, rfl⟩

theorem lastWrite_mapConst (ks : List String) (r : Route) (k : String) :
    lastWrite (ks.map (fun k' => (k', r))) k =
      if k ∈ ks then some r else none := by
  induction ks with
  | nil => simp [lastWrite]
  | cons k' ks ih =>
    simp only [List.map_cons, lastWrite, ih]
    by_cases hm : k ∈ ks
    · simp [hm]
    · by_cases hk : k' = k
      · simp [hm, hk]
      · simp only [hm, if_false, List.mem_cons, or_false, hk]
        rw [if_neg (fun h : k = k' => hk h.symm)]

theorem lastWrite_routeWrites (r : Route) (k : String) :
    lastWrite (routeWrites r) k = if k ∈ routeKeys r then some r else none :=
  lastWrite_mapConst (routeKeys r) r k

theorem lastWrite_bucketWrites_eq_none_iff (b : List Route) (k : String) :
    lastWrite (bucketWrites b) k = none ↔ ∀ r ∈ b, k ∉ routeKeys r := by
  rw [lastWrite_eq_none_iff]
  constructor
  · intro h r hr hk
    exact h (k, r) ((mem_bucketWrites b (k, r)).mpr ⟨hr, hk⟩) rfl
  · intro h w hw hk
    have := (mem_bucketWrites b w).mp hw
    exact h w.2 this.1 (hk ▸ this.2)

theorem lastWrite_bucketWrites_last (b₁ b₂ : List Route) (r : Route)
    (k : String) (hk : k ∈ routeKeys r) (hb₂ : ∀ r' ∈ b₂, k ∉ routeKeys r') :
    lastWrite (bucketWrites (b₁ ++ r :: b₂)) k = some r := by
  have h1 : bucketWrites (b₁ ++ r :: b₂) =
      bucketWrites b₁ ++ (routeWrites r ++ bucketWrites b₂) := by
    simp [bucketWrites, List.flatMap_append]
  rw [h1, lastWrite_append, lastWrite_append,
    (lastWrite_bucketWrites_eq_none_iff b₂ k).mpr hb₂,
    lastWrite_routeWrites, if_pos hk]

/-! Lemmas about version sorting and grouping. -/

theorem insertVersionSorted_ne_nil (v : Version) (l : List Version) :
    insertVersionSorted v l ≠ [] := by
  cases l with
  | nil => simp [insertVersionSorted]
  | cons w ws =>
    simp only [insertVersionSorted]
    split
    · simp
    · split <;> simp

theorem mem_insertVersionSorted (v x : Version) (l : List Version) :
    x ∈ insertVersionSorted v l ↔ x = v ∨ x ∈ l := by
  induction l with
  | nil => simp [insertVersionSorted]
  | cons w ws ih =>
    simp only [insertVersionSorted]
    split
    · simp [List.mem_cons]
    · split
      · rename_i hlt heq
        subst heq
        simp only [List.mem_cons]
        constructor
        · intro h
          exact Or.inr h
        · intro h
          rcases h with rfl | h
          · exact Or.inl rfl
          · exact h
      · simp only [List.mem_cons, ih]
        tauto

theorem pairwise_insertVersionSorted (v : Version) (l : List Version)
    (h : l.Pairwise (fun a b => vlt a b = true)) :
    (insertVersionSorted v l).Pairwise (fun a b => vlt a b = true) := by
  induction l with
  | nil => simp [insertVersionSorted]
  | cons w ws ih =>
    rw [List.pairwise_cons] at h
    obtain ⟨hw, hws⟩ := h
    simp only [insertVersionSorted]
    split
    · rename_i hlt
      rw [List.pairwise_cons]
      refine ⟨?_, List.pairwise_cons.mpr ⟨hw, hws⟩⟩
      intro x hx
      rcases List.mem_cons.mp hx with rfl | hx
      · exact hlt
      · exact vlt_trans hlt (hw x hx)
    · split
      · exact List.pairwise_cons.mpr ⟨hw, hws⟩
      · rename_i hlt heq
        rw [List.pairwise_cons]
        refine ⟨?_, ih hws⟩
        intro x hx
        rcases (mem_insertVersionSorted v x ws).mp hx with rfl | hx
        · exact vlt_of_not_vlt_of_ne (Bool.of_not_eq_true hlt) heq
        · exact hw x hx

theorem mem_sortedVersions (l : List Version) (x : Version) :
    x ∈ sortedVersions l ↔ x ∈ l := by
  induction l with
  | nil => simp [sortedVersions]
  | cons v vs ih =>
    show x ∈ insertVersionSorted v (sortedVersions vs) ↔ _
    rw [mem_insertVersionSorted, ih, List.mem_cons]

theorem pairwise_sortedVersions (l : List Version) :
    (sortedVersions l).Pairwise (fun a b => vlt a b = true) := by
  induction l with
  | nil => simp [sortedVersions]
  | cons v vs ih => exact pairwise_insertVersionSorted v _ ih

theorem sortedVersions_eq_nil_iff (l : List Version) :
    sortedVersions l = [] ↔ l = [] := by
  cases l with
  | nil => simp [sortedVersions]
  | cons v vs =>
    simp only [List.cons_ne_nil, iff_false]
    exact insertVersionSorted_ne_nil v _

theorem mem_bucketOf (dflt : Version) (routes : List Route) (v : Version)
    (r : Route) :
    r ∈ bucketOf dflt routes v ↔ r ∈ routes ∧ resolvedVersion dflt r = v := by
  simp [bucketOf, List.mem_filter]

theorem map_fst_groupRoutes (dflt : Version) (routes : List Route) :
    (groupRoutes dflt routes).map Prod.fst =
      sortedVersions (routes.map (resolvedVersion dflt)) := by
  simp [groupRoutes, List.map_map, Function.comp_def]

theorem pairwise_groupRoutes (dflt : Version) (routes : List Route) :
    (groupRoutes dflt routes).Pairwise (fun p q => vlt p.1 q.1 = true) := by
  rw [groupRoutes, List.pairwise_map]
  exact pairwise_sortedVersions _

theorem mem_groupRoutes (dflt : Version) (routes : List Route)
    (p : Version × List Route) :
    p ∈ groupRoutes dflt routes ↔
      (∃ r ∈ routes, resolvedVersion dflt r = p.1) ∧
        p.2 = bucketOf dflt routes p.1 := by
  obtain ⟨v, b⟩ := p
  simp only [groupRoutes, List.mem_map]
  constructor
  · rintro ⟨v', hv', he⟩
    cases he
    obtain ⟨r, hr, hre⟩ := List.mem_map.mp ((mem_sortedVersions _ _).mp hv')
    exact ⟨⟨r, hr, hre⟩, rfl⟩
  · rintro ⟨⟨r, hr, hre⟩, hb⟩
    subst hb
    exact ⟨v, (mem_sortedVersions _ _).mpr (List.mem_map.mpr ⟨r, hr, hre⟩), rfl⟩

/-! Lemmas connecting the accumulator state to the write history. -/

theorem dictLookup_accumUpTo (dflt : Version) (routes : List Route)
    (V : Version) (k : String) :
    dictLookup (accumUpTo dflt routes V) k =
      lastWrite (writesUpTo dflt routes V) k := by
  rw [accumUpTo, dictLookup_applyWrites]
  cases lastWrite (writesUpTo dflt routes V) k <;> simp [dictLookup]

theorem lastWrite_flatMap_none_iff (L : List (Version × List Route))
    (k : String) :
    lastWrite (L.flatMap (fun p => bucketWrites p.2)) k = none ↔
      ∀ p ∈ L, lastWrite (bucketWrites p.2) k = none := by
  rw [lastWrite_eq_none_iff]
  constructor
  · intro h p hp
    rw [lastWrite_eq_none_iff]
    intro w hw
    exact h w (List.mem_flatMap.mpr ⟨p, hp, hw⟩)
  · intro h w hw
    obtain ⟨p, hp, hwp⟩ := List.mem_flatMap.mp hw
    exact (lastWrite_eq_none_iff _ _).mp (h p hp) w hwp

theorem lastWrite_flatMap_decomp (L : List (Version × List Route))
    (k : String) (r : Route)
    (h : lastWrite (L.flatMap (fun p => bucketWrites p.2)) k = some r) :
    ∃ L₁ p L₂, L = L₁ ++ p :: L₂ ∧
      lastWrite (bucketWrites p.2) k = some r ∧
      ∀ q ∈ L₂, lastWrite (bucketWrites q.2) k = none := by
  induction L with
  | nil => simp [lastWrite] at h
  | cons p L ih =>
    rw [List.flatMap_cons, lastWrite_append] at h
    cases h2 : lastWrite (L.flatMap (fun p => bucketWrites p.2)) k with
    | some r' =>
      rw [h2] at h
      cases h
      obtain ⟨L₁, q, L₂, hsplit, hq, hnone⟩ := ih h2
      exact ⟨p :: L₁, q, L₂, by rw [hsplit, List.cons_append], hq, hnone⟩
    | none =>
      rw [h2] at h
      exact ⟨[], p, L, rfl, h, (lastWrite_flatMap_none_iff L k).mp h2⟩

theorem filter_bucketWrites_eq_nil (b : List Route) (k : String)
    (h : ∀ r ∈ b, k ∉ routeKeys r) :
    (bucketWrites b).filter (fun w => decide (w.1 = k)) = [] := by
  rw [List.filter_eq_nil_iff]
  intro w hw
  have hm := (mem_bucketWrites b w).mp hw
  simp only [decide_eq_true_eq]
  intro he
  exact h w.2 hm.1 (he ▸ hm.2)

theorem lastWrite_filterKey (ws : List (String × Route)) (k : String) :
    lastWrite ws k = lastWrite (ws.filter (fun w => decide (w.1 = k))) k := by
  induction ws with
  | nil => simp
  | cons w ws ih =>
    by_cases hk : w.1 = k
    · rw [List.filter_cons_of_pos (by simp [hk])]
      simp only [lastWrite, ih]
    · rw [List.filter_cons_of_neg (by simp [hk])]
      simp only [lastWrite, ih]
      cases lastWrite (ws.filter (fun w => decide (w.1 = k))) k with
      | some r => rfl
      | none => simp [hk]

theorem filter_flatMap_writes_congr (L : List (Version × List Route))
    (V V2 : Version) (k : String) (hVle : vle V V2 = true)
    (hL : ∀ p ∈ L, vlt V p.1 = true → vle p.1 V2 = true →
      ∀ r' ∈ p.2, k ∉ routeKeys r') :
    ((L.filter (fun p => vle p.1 V2)).flatMap
        (fun p => bucketWrites p.2)).filter (fun w => decide (w.1 = k)) =
      ((L.filter (fun p => vle p.1 V)).flatMap
        (fun p => bucketWrites p.2)).filter (fun w => decide (w.1 = k)) := by
  induction L with
  | nil => simp
  | cons p L ih =>
    have ihL := ih (fun q hq => hL q (List.mem_cons_of_mem p hq))
    cases hv : vle p.1 V with
    | true =>
      have hv2 : vle p.1 V2 = true := vle_trans hv hVle
      rw [List.filter_cons_of_pos (by rw [hv2]),
        List.filter_cons_of_pos (by rw [hv]), List.flatMap_cons,
        List.flatMap_cons, List.filter_append, List.filter_append, ihL]
    | false =>
      cases hv2 : vle p.1 V2 with
      | true =>
        have hnone : ∀ r' ∈ p.2, k ∉ routeKeys r' :=
          hL p (List.mem_cons_self p L) (vlt_of_not_vle hv) hv2
        rw [List.filter_cons_of_pos (by rw [hv2]),
          List.filter_cons_of_neg (by rw [hv]; exact Bool.false_ne_true),
          List.flatMap_cons, List.filter_append,
          filter_bucketWrites_eq_nil p.2 k hnone, List.nil_append, ihL]
      | false =>
        rw [List.filter_cons_of_neg (by rw [hv2]; exact Bool.false_ne_true),
          List.filter_cons_of_neg (by rw [hv]; exact Bool.false_ne_true), ihL]

theorem mem_writesUpTo (dflt : Version) (routes : List Route) (V : Version)
    (w : String × Route) :
    w ∈ writesUpTo dflt routes V ↔
      w.2 ∈ routes ∧ vle (resolvedVersion dflt w.2) V = true ∧
        w.1 ∈ routeKeys w.2 := by
  simp only [writesUpTo, List.mem_flatMap, List.mem_filter]
  constructor
  · rintro ⟨p, ⟨hpg, hpV⟩, hwp⟩
    obtain ⟨hw2, hw1⟩ := (mem_bucketWrites _ _).mp hwp
    obtain ⟨_, hb⟩ := (mem_groupRoutes _ _ p).mp hpg
    rw [hb] at hw2
    obtain ⟨hin, hres⟩ := (mem_bucketOf _ _ _ _).mp hw2
    exact ⟨hin, by rw [hres]; exact hpV, hw1⟩
  · rintro ⟨hin, hV, hk⟩
    refine ⟨(resolvedVersion dflt w.2,
      bucketOf dflt routes (resolvedVersion dflt w.2)), ⟨?_, hV⟩, ?_⟩
    · exact (mem_groupRoutes _ _ _).mpr ⟨⟨w.2, hin, rfl⟩, rfl⟩
    · exact (mem_bucketWrites _ _).mpr ⟨(mem_bucketOf _ _ _ _).mpr ⟨hin, rfl⟩, hk⟩

/-! Claim C1. -/

/-- C1: for every input route collection, processing versions in ascending
order, after the accumulator has processed version `V` the accumulated
route set contains exactly the endpoints of all versions `≤ V` (each key
held by the highest version defining it); consequently for `V ≤ V2`, every
endpoint visible at `V` whose `(path, method)` key is not redefined by a
later version `≤ V2` is also visible at `V2`. -/
theorem c1_accumulated_route_set (dflt : Version) (routes : List Route)
    (V : Version) (k : String) :
    ((∃ r, dictLookup (accumUpTo dflt routes V) k = some r) ↔
      ∃ r ∈ routes, vle (resolvedVersion dflt r) V = true ∧ k ∈ routeKeys r) ∧
    (∀ r, dictLookup (accumUpTo dflt routes V) k = some r →
      r ∈ routes ∧ k ∈ routeKeys r ∧ vle (resolvedVersion dflt r) V = true ∧
      ∀ r' ∈ routes, k ∈ routeKeys r' → vle (resolvedVersion dflt r') V = true →
        vle (resolvedVersion dflt r') (resolvedVersion dflt r) = true) ∧
    (∀ V2 r, vle V V2 = true →
      dictLookup (accumUpTo dflt routes V) k = some r →
      (∀ r' ∈ routes, k ∈ routeKeys r' →
        vlt V (resolvedVersion dflt r') = true →
        vle (resolvedVersion dflt r') V2 = true → False) →
      dictLookup (accumUpTo dflt routes V2) k = some r) := by
  refine ⟨?_, ?_, ?_⟩
  · rw [dictLookup_accumUpTo, lastWrite_isSome_iff]
    constructor
    · rintro ⟨w, hw, hk⟩
      have hm := (mem_writesUpTo _ _ _ w).mp hw
      exact ⟨w.2, hm.1, hm.2.1, hk ▸ hm.2.2⟩
    · rintro ⟨r, hr, hV, hk⟩
      exact ⟨(k, r), (mem_writesUpTo _ _ _ _).mpr ⟨hr, hV, hk⟩, rfl⟩
  · intro r h
    rw [dictLookup_accumUpTo] at h
    simp only [writesUpTo] at h
    obtain ⟨L₁, p, L₂, hsplit, hp, hnone⟩ := lastWrite_flatMap_decomp _ k r h
    have hkr := (mem_bucketWrites _ _).mp (lastWrite_mem hp)
    have hpf : p ∈ (groupRoutes dflt routes).filter (fun p => vle p.1 V) := by
      rw [hsplit]
      exact List.mem_append.mpr (Or.inr (List.mem_cons_self p L₂))
    obtain ⟨hpg, hpV⟩ := List.mem_filter.mp hpf
    obtain ⟨_, hb⟩ := (mem_groupRoutes _ _ p).mp hpg
    have hr2 := hkr.1
    rw [hb] at hr2
    obtain ⟨hin, hres⟩ := (mem_bucketOf _ _ _ _).mp hr2
    refine ⟨hin, hkr.2, by rw [hres]; exact hpV, ?_⟩
    intro r' hr' hk' hV'
    have hqg : (resolvedVersion dflt r',
        bucketOf dflt routes (resolvedVersion dflt r')) ∈
        groupRoutes dflt routes :=
      (mem_groupRoutes _ _ _).mpr ⟨⟨r', hr', rfl⟩, rfl⟩
    have hqf : (resolvedVersion dflt r',
        bucketOf dflt routes (resolvedVersion dflt r')) ∈
        (groupRoutes dflt routes).filter (fun p => vle p.1 V) :=
      List.mem_filter.mpr ⟨hqg, hV'⟩
    rw [hsplit] at hqf
    have hpw := (pairwise_groupRoutes dflt routes).filter
      (fun p => vle p.1 V)
    rw [hsplit] at hpw
    obtain ⟨_, hpw2, hcross⟩ := List.pairwise_append.mp hpw
    rcases List.mem_append.mp hqf with hq1 | hq2
    · have hlt := hcross _ hq1 p (List.mem_cons_self p L₂)
      rw [hres]
      exact vle_of_vlt hlt
    · rcases List.mem_cons.mp hq2 with hqe | hq3
      · have : resolvedVersion dflt r' = p.1 := congrArg Prod.fst hqe
        rw [hres, this]
        exact vle_refl _
      · have hn := (lastWrite_bucketWrites_eq_none_iff _ k).mp (hnone _ hq3)
        exact (hn r' ((mem_bucketOf _ _ _ _).mpr ⟨hr', rfl⟩) hk').elim
  · intro V2 r hV12 h hno
    rw [dictLookup_accumUpTo] at h ⊢
    rw [lastWrite_filterKey] at h ⊢
    simp only [writesUpTo] at h ⊢
    rw [filter_flatMap_writes_congr (groupRoutes dflt routes) V V2 k hV12 ?hL]
    · exact h
    case hL =>
      intro p hp hvlt hvle r' hr' hk'
      obtain ⟨_, hb⟩ := (mem_groupRoutes _ _ p).mp hp
      rw [hb] at hr'
      obtain ⟨hin, hres⟩ := (mem_bucketOf _ _ _ _).mp hr'
      exact hno r' hin hk' (by rw [hres]; exact hvlt) (by rw [hres]; exact hvle)

/-- Example fixture: scenario 1 of the specification (`GET /greet`
untagged, `GET /greet` and `PUT /greet` tagged `(1, 2)`, plus an extra
untagged `GET /only`). -/
def exGreet10 : Route := ⟨"/greet", ["GET"], true, ["users"], none, 0⟩

def exGreet12G : Route := ⟨"/greet", ["GET"], true, [], some (1, 2), 1⟩

def exGreet12P : Route := ⟨"/greet", ["PUT"], true, [], some (1, 2), 2⟩

def exOnly10 : Route := ⟨"/only", ["GET"], true, [], none, 3⟩

def exRoutes : List Route := [exGreet10, exGreet12G, exGreet12P, exOnly10]

/-- Witness for C1 at a concrete input: the `GET /only` endpoint of
version `(1, 0)` is still visible at version `(1, 2)` since no later
version redefines its key. -/
theorem c1_accumulated_route_set_witness :
    dictLookup (accumUpTo (1, 0) exRoutes (1, 2)) "/only|GET" = some exOnly10 :=
  (c1_accumulated_route_set (1, 0) exRoutes (1, 0) "/only|GET").2.2 (1, 2)
    exOnly10 (by decide) (by decide) (by decide)

/-! Structural lemmas about the main per-version loop. -/

theorem applyWrites_append (d : RouteDict) (ws₁ ws₂ : List (String × Route)) :
    applyWrites d (ws₁ ++ ws₂) = applyWrites (applyWrites d ws₁) ws₂ :=
  List.foldl_append _ _ _ _

theorem buildVersions_uniq (t de vf pf : String) (tg : List Tag)
    (rd : Option Version) :
    ∀ (vbs : List (Version × List Route)) (d : RouteDict),
    (buildVersions t de vf pf tg rd d vbs).uniq =
      applyWrites d (vbs.flatMap (fun p => bucketWrites p.2))
  | [], d => by simp [buildVersions, applyWrites]
  | (v, b) :: rest, d => by
    simp only [buildVersions, List.flatMap_cons, applyWrites_append]
    exact buildVersions_uniq t de vf pf tg rd rest _

theorem buildVersions_mounts_length (t de vf pf : String) (tg : List Tag)
    (rd : Option Version) :
    ∀ (vbs : List (Version × List Route)) (d : RouteDict),
    (buildVersions t de vf pf tg rd d vbs).mounts.length = vbs.length
  | [], d => by simp [buildVersions]
  | (v, b) :: rest, d => by
    simp only [buildVersions, List.length_cons]
    rw [buildVersions_mounts_length t de vf pf tg rd rest _]

theorem buildVersions_mount_of_split (t de vf pf : String) (tg : List Tag)
    (rd : Option Version) :
    ∀ (L₁ : List (Version × List Route)) (p : Version × List Route)
      (L₂ : List (Version × List Route)) (d : RouteDict),
    (render pf p.1,
        mkSubApp t de vf tg p.1
          (applyWrites d
            ((L₁.flatMap (fun q => bucketWrites q.2)) ++ bucketWrites p.2)))
      ∈ (buildVersions t de vf pf tg rd d (L₁ ++ p :: L₂)).mounts
  | [], p, L₂, d => by
    obtain ⟨v, b⟩ := p
    simp only [List.nil_append, buildVersions, List.flatMap_nil]
    exact List.mem_cons_self _ _
  | q :: L₁, p, L₂, d => by
    obtain ⟨v, b⟩ := q
    have hm : (buildVersions t de vf pf tg rd d ((v, b) :: (L₁ ++ p :: L₂))).mounts
        = (render pf v, mkSubApp t de vf tg v (applyWrites d (bucketWrites b)))
          :: (buildVersions t de vf pf tg rd (applyWrites d (bucketWrites b))
              (L₁ ++ p :: L₂)).mounts := rfl
    rw [List.cons_append, hm]
    refine List.mem_cons_of_mem _ ?_
    have h := buildVersions_mount_of_split t de vf pf tg rd L₁ p L₂
      (applyWrites d (bucketWrites b))
    rw [← applyWrites_append] at h
    simp only [List.flatMap_cons, List.append_assoc]
    exact h

theorem buildVersions_rootRoutes_nil (t de vf pf : String) (tg : List Tag)
    (rd : Option Version) :
    ∀ (vbs : List (Version × List Route)) (d : RouteDict),
    (∀ p ∈ vbs, rd ≠ some p.1) →
    (buildVersions t de vf pf tg rd d vbs).rootRoutes = []
  | [], d, _ => by simp [buildVersions]
  | (v, b) :: rest, d, h => by
    have hstep : (buildVersions t de vf pf tg rd d ((v, b) :: rest)).rootRoutes
        = (if rd = some v then dictValues (applyWrites d (bucketWrites b))
            else [])
          ++ (buildVersions t de vf pf tg rd (applyWrites d (bucketWrites b))
              rest).rootRoutes := rfl
    rw [hstep, if_neg (h (v, b) (List.mem_cons_self _ _)),
      buildVersions_rootRoutes_nil t de vf pf tg rd rest _
        (fun p hp => h p (List.mem_cons_of_mem _ hp)),
      List.nil_append]

theorem buildVersions_redirect (t de vf pf : String) (tg : List Tag)
    (rv : Version) :
    ∀ (vbs : List (Version × List Route)) (d : RouteDict),
    vbs.Pairwise (fun p q => vlt p.1 q.1 = true) →
    (∃ b, (rv, b) ∈ vbs) →
    ∃ sub, (render pf rv, sub) ∈
        (buildVersions t de vf pf tg (some rv) d vbs).mounts ∧
      (buildVersions t de vf pf tg (some rv) d vbs).rootRoutes = sub.routes
  | [], d, _, hex => by
    obtain ⟨b, hb⟩ := hex
    simp at hb
  | (v, b) :: rest, d, hpw, hex => by
    rw [List.pairwise_cons] at hpw
    obtain ⟨hhead, htail⟩ := hpw
    have hstepm : (buildVersions t de vf pf tg (some rv) d ((v, b) :: rest)).mounts
        = (render pf v, mkSubApp t de vf tg v (applyWrites d (bucketWrites b)))
          :: (buildVersions t de vf pf tg (some rv)
              (applyWrites d (bucketWrites b)) rest).mounts := rfl
    have hstepr : (buildVersions t de vf pf tg (some rv) d
          ((v, b) :: rest)).rootRoutes
        = (if some rv = some v then
            dictValues (applyWrites d (bucketWrites b)) else [])
          ++ (buildVersions t de vf pf tg (some rv)
              (applyWrites d (bucketWrites b)) rest).rootRoutes := rfl
    by_cases hv : rv = v
    · subst hv
      refine ⟨mkSubApp t de vf tg rv (applyWrites d (bucketWrites b)), ?_, ?_⟩
      · rw [hstepm]
        exact List.mem_cons_self _ _
      · rw [hstepr, if_pos rfl,
          buildVersions_rootRoutes_nil t de vf pf tg (some rv) rest _
            (fun p hp he => ne_of_vlt (hhead p hp) (Option.some.inj he)),
          List.append_nil]
        rfl
    · obtain ⟨b0, hb0⟩ := hex
      have hb0' : (rv, b0) ∈ rest := by
        rcases List.mem_cons.mp hb0 with he | hm
        · exact absurd (congrArg Prod.fst he) hv
        · exact hm
      obtain ⟨sub, hsub, hroot⟩ := buildVersions_redirect t de vf pf tg rv rest
        (applyWrites d (bucketWrites b)) htail ⟨b0, hb0'⟩
      refine ⟨sub, ?_, ?_⟩
      · rw [hstepm]
        exact List.mem_cons_of_mem _ hsub
      · rw [hstepr, if_neg (fun he => hv (Option.some.inj he)), List.nil_append]
        exact hroot

theorem buildVersions_last (t de vf pf : String) (tg : List Tag)
    (rd : Option Version) :
    ∀ (vbs : List (Version × List Route)) (d : RouteDict), vbs ≠ [] →
    ∃ vmax, (vbs.map Prod.fst).getLast? = some vmax ∧
      (buildVersions t de vf pf tg rd d vbs).mounts.getLast? =
        some (render pf vmax,
          mkSubApp t de vf tg vmax (buildVersions t de vf pf tg rd d vbs).uniq)
  | [], _, h => absurd rfl h
  | [(v, b)], d, _ => by
    refine ⟨v, by simp, ?_⟩
    simp [buildVersions]
  | (v, b) :: q :: rest, d, _ => by
    obtain ⟨vmax, hm, hl⟩ := buildVersions_last t de vf pf tg rd (q :: rest)
      (applyWrites d (bucketWrites b)) (by simp)
    have hstepm : (buildVersions t de vf pf tg rd d
          ((v, b) :: q :: rest)).mounts
        = (render pf v, mkSubApp t de vf tg v (applyWrites d (bucketWrites b)))
          :: (buildVersions t de vf pf tg rd (applyWrites d (bucketWrites b))
              (q :: rest)).mounts := rfl
    have hstepu : (buildVersions t de vf pf tg rd d ((v, b) :: q :: rest)).uniq
        = (buildVersions t de vf pf tg rd (applyWrites d (bucketWrites b))
            (q :: rest)).uniq := rfl
    refine ⟨vmax, ?_, ?_⟩
    · simp only [List.map_cons] at hm ⊢
      rw [List.getLast?_cons_cons]
      exact hm
    · rw [hstepm, hstepu]
      cases hms : (buildVersions t de vf pf tg rd
          (applyWrites d (bucketWrites b)) (q :: rest)).mounts with
      | nil =>
        rw [hms] at hl
        simp at hl
      | cons m ms =>
        rw [hms] at hl
        rw [List.getLast?_cons_cons]
        exact hl

theorem buildVersions_doc_handler (t de vf pf : String) (tg : List Tag)
    (rd : Option Version) :
    ∀ (vbs : List (Version × List Route)) (d : RouteDict),
    ∀ doc ∈ (buildVersions t de vf pf tg rd d vbs).docEndpoints,
    doc.handler = doc_endpoint_response
  | [], d, doc, h => by simp [buildVersions] at h
  | (v, b) :: rest, d, doc, h => by
    have hstep : (buildVersions t de vf pf tg rd d
          ((v, b) :: rest)).docEndpoints
        = ((if rd = some v then [noVersionDoc (render vf v)] else [])
            ++ docEntriesForVersion (render pf v) (render vf v))
          ++ (buildVersions t de vf pf tg rd (applyWrites d (bucketWrites b))
              rest).docEndpoints := rfl
    rw [hstep] at h
    rcases List.mem_append.mp h with h12 | h3
    · rcases List.mem_append.mp h12 with h1 | h2
      · split at h1
        · rw [List.mem_singleton.mp h1]
          rfl
        · simp at h1
      · simp only [docEntriesForVersion, List.mem_cons, List.not_mem_nil,
          or_false] at h2
        rcases h2 with he | he | he <;> rw [he]
    · exact buildVersions_doc_handler t de vf pf tg rd rest _ doc h3

/-! Helper equations exposing the three outcomes of `VersionedFastAPI`. -/

/-- The internal tag list after `openapi_tags += OPENAPI_TAGS_VERSIONED_ENDPOINTS`. -/
def vfaTags (tags : Option (List Tag)) : List Tag :=
  tags.getD [] ++ OPENAPI_TAGS_VERSIONED_ENDPOINTS

/-- The result of the main loop as invoked by `VersionedFastAPI`. -/
def vfaBuilt (t de : String) (routes : List Route) (vf pf : String)
    (dflt : Version) (rd : Option Version) (tags : Option (List Tag)) :
    BuildResult :=
  buildVersions t de vf pf (vfaTags tags) rd [] (groupRoutes dflt routes)

theorem vfa_false_eq (t de : String) (routes : List Route) (vf pf : String)
    (dflt : Version) (rd : Option Version) (tags : Option (List Tag)) :
    VersionedFastAPI t de routes vf pf dflt false rd tags =
      some
        { title := t
          mounts := (vfaBuilt t de routes vf pf dflt rd tags).mounts
          rootRoutes := (vfaBuilt t de routes vf pf dflt rd tags).rootRoutes
          docEndpoints := (vfaBuilt t de routes vf pf dflt rd tags).docEndpoints
          openapiTags := vfaTags tags
          callerTagsAfter :=
            tags.map (· ++ OPENAPI_TAGS_VERSIONED_ENDPOINTS) } := rfl

theorem vfa_true_none (t de : String) (routes : List Route) (vf pf : String)
    (dflt : Version) (rd : Option Version) (tags : Option (List Tag))
    (hv : ((groupRoutes dflt routes).map Prod.fst).getLast? = none) :
    VersionedFastAPI t de routes vf pf dflt true rd tags = none := by
  simp only [VersionedFastAPI, hv]
  rfl

theorem vfa_true_eq (t de : String) (routes : List Route) (vf pf : String)
    (dflt : Version) (rd : Option Version) (tags : Option (List Tag))
    (vmax : Version)
    (hv : ((groupRoutes dflt routes).map Prod.fst).getLast? = some vmax) :
    VersionedFastAPI t de routes vf pf dflt true rd tags =
      some
        { title := t
          mounts := (vfaBuilt t de routes vf pf dflt rd tags).mounts
            ++ [("/latest", mkSubApp t de vf (vfaTags tags) vmax
                  (vfaBuilt t de routes vf pf dflt rd tags).uniq)]
          rootRoutes := (vfaBuilt t de routes vf pf dflt rd tags).rootRoutes
          docEndpoints := (vfaBuilt t de routes vf pf dflt rd tags).docEndpoints
            ++ [latestDoc (render vf vmax)]
          openapiTags := vfaTags tags
          callerTagsAfter :=
            tags.map (· ++ OPENAPI_TAGS_VERSIONED_ENDPOINTS) } := by
  simp only [VersionedFastAPI, hv]
  rfl

theorem groupRoutes_getLast?_isSome (dflt : Version) (routes : List Route)
    (hne : routes ≠ []) :
    ∃ vmax, ((groupRoutes dflt routes).map Prod.fst).getLast? = some vmax := by
  rw [← Option.isSome_iff_exists, List.getLast?_isSome, map_fst_groupRoutes]
  simp only [ne_eq, sortedVersions_eq_nil_iff, List.map_eq_nil_iff]
  exact hne

theorem vfa_isSome (t de : String) (routes : List Route) (vf pf : String)
    (dflt : Version) (el : Bool) (rd : Option Version)
    (tags : Option (List Tag)) (hne : routes ≠ []) :
    (VersionedFastAPI t de routes vf pf dflt el rd tags).isSome = true := by
  cases el with
  | false => rw [vfa_false_eq]; rfl
  | true =>
    obtain ⟨vmax, hv⟩ := groupRoutes_getLast?_isSome dflt routes hne
    rw [vfa_true_eq t de routes vf pf dflt rd tags vmax hv]
    rfl

theorem vfa_mounts_shape (t de : String) (routes : List Route) (vf pf : String)
    (dflt : Version) (el : Bool) (rd : Option Version)
    (tags : Option (List Tag)) (p : ParentApp)
    (hp : VersionedFastAPI t de routes vf pf dflt el rd tags = some p) :
    ∃ extra, p.mounts = (vfaBuilt t de routes vf pf dflt rd tags).mounts ++ extra
      ∧ p.rootRoutes = (vfaBuilt t de routes vf pf dflt rd tags).rootRoutes := by
  cases el with
  | false =>
    rw [vfa_false_eq] at hp
    cases Option.some.inj hp
    exact ⟨[], (List.append_nil _).symm, rfl⟩
  | true =>
    cases hg : ((groupRoutes dflt routes).map Prod.fst).getLast? with
    | none =>
      rw [vfa_true_none t de routes vf pf dflt rd tags hg] at hp
      cases hp
    | some vmax =>
      rw [vfa_true_eq t de routes vf pf dflt rd tags vmax hg] at hp
      cases Option.some.inj hp
      exact ⟨_, rfl, rfl⟩

theorem vfa_mount_lookup (t de : String) (routes : List Route) (vf pf : String)
    (dflt : Version) (rd : Option Version) (tags : Option (List Tag))
    (V2 : Version) (r2 : Route) (k : String)
    (hmem : V2 ∈ routes.map (resolvedVersion dflt))
    (hlastb : lastWrite (bucketWrites (bucketOf dflt routes V2)) k = some r2) :
    ∃ sub, (render pf V2, sub) ∈ (vfaBuilt t de routes vf pf dflt rd tags).mounts ∧
      dictLookup sub.routeMap k = some r2 := by
  have hV2s : V2 ∈ sortedVersions (routes.map (resolvedVersion dflt)) :=
    (mem_sortedVersions _ _).mpr hmem
  obtain ⟨S₁, S₂, hsplit⟩ := List.append_of_mem hV2s
  have hgr : groupRoutes dflt routes
      = (S₁.map (fun v => (v, bucketOf dflt routes v)))
        ++ (V2, bucketOf dflt routes V2)
          :: (S₂.map (fun v => (v, bucketOf dflt routes v))) := by
    rw [groupRoutes, hsplit, List.map_append, List.map_cons]
  refine ⟨mkSubApp t de vf (vfaTags tags) V2
    (applyWrites []
      (((S₁.map (fun v => (v, bucketOf dflt routes v))).flatMap
          (fun q => bucketWrites q.2))
        ++ bucketWrites (bucketOf dflt routes V2))), ?_, ?_⟩
  · have h := buildVersions_mount_of_split t de vf pf (vfaTags tags) rd
      (S₁.map (fun v => (v, bucketOf dflt routes v)))
      (V2, bucketOf dflt routes V2)
      (S₂.map (fun v => (v, bucketOf dflt routes v))) []
    rw [vfaBuilt, hgr]
    exact h
  · show dictLookup (applyWrites []
      (_ ++ bucketWrites (bucketOf dflt routes V2))) k = some r2
    rw [dictLookup_applyWrites, lastWrite_append, hlastb]

/-! Claim C2. -/

/-- C2: overriding in the accumulated route set is per `(path, method)`
key, not per whole endpoint: if a later version `V2` and an earlier
version both define the same `(path, method)` key, the sub-application
built for `V2` maps that key to `V2`'s handler; within a single version
the endpoint registered later silently overwrites an earlier one with the
same key, and composition never raises an error for such collisions. -/
theorem c2_per_key_override (t de vf pf : String) (dflt : Version)
    (el : Bool) (rd : Option Version) (tags : Option (List Tag))
    (l₁ l₂ : List Route) (r1 r2 : Route) (k : String) (V2 : Version)
    (hr2V : resolvedVersion dflt r2 = V2) (hk2 : k ∈ routeKeys r2)
    (hlast : ∀ r' ∈ l₂, resolvedVersion dflt r' = V2 → k ∉ routeKeys r')
    (hr1 : r1 ∈ l₁) (hk1 : k ∈ routeKeys r1)
    (hr1V : vle (resolvedVersion dflt r1) V2 = true) :
    (VersionedFastAPI t de (l₁ ++ r2 :: l₂) vf pf dflt el rd tags).isSome
        = true ∧
    ∀ p, VersionedFastAPI t de (l₁ ++ r2 :: l₂) vf pf dflt el rd tags = some p →
      ∃ sub, (render pf V2, sub) ∈ p.mounts ∧
        dictLookup sub.routeMap k = some r2 := by
  constructor
  · exact vfa_isSome t de _ vf pf dflt el rd tags (by simp)
  · intro p hp
    obtain ⟨extra, hme, _⟩ := vfa_mounts_shape t de _ vf pf dflt el rd tags p hp
    have hmem : V2 ∈ (l₁ ++ r2 :: l₂).map (resolvedVersion dflt) :=
      List.mem_map.mpr
        ⟨r2, List.mem_append.mpr (Or.inr (List.mem_cons_self _ _)), hr2V⟩
    have hbucket : bucketOf dflt (l₁ ++ r2 :: l₂) V2
        = (l₁.filter (fun r => decide (resolvedVersion dflt r = V2)))
          ++ r2 :: (l₂.filter (fun r => decide (resolvedVersion dflt r = V2))) := by
      rw [bucketOf, List.filter_append,
        List.filter_cons_of_pos (by simp [hr2V])]
    have hlw : lastWrite (bucketWrites (bucketOf dflt (l₁ ++ r2 :: l₂) V2)) k
        = some r2 := by
      rw [hbucket]
      refine lastWrite_bucketWrites_last _ _ r2 k hk2 ?_
      intro r' hr'
      have hm := List.mem_filter.mp hr'
      exact hlast r' hm.1 (by simpa using hm.2)
    obtain ⟨sub, hsub, hlook⟩ := vfa_mount_lookup t de (l₁ ++ r2 :: l₂) vf pf
      dflt rd tags V2 r2 k hmem hlw
    refine ⟨sub, ?_, hlook⟩
    rw [hme]
    exact List.mem_append.mpr (Or.inl hsub)

/-- Witness for C2: in the sub-application for version `(1, 2)`, the key
`GET /greet` is mapped to the `(1, 2)` handler, overriding the `(1, 0)`
one, and composition succeeds. -/
theorem c2_per_key_override_witness :
    ∃ p sub,
      VersionedFastAPI "T" "D" ([exGreet10] ++ exGreet12G :: [exGreet12P, exOnly10])
        "{major}.{minor}" "/v{major}_{minor}" (1, 0) false none none = some p ∧
      (render "/v{major}_{minor}" (1, 2), sub) ∈ p.mounts ∧
      dictLookup sub.routeMap "/greet|GET" = some exGreet12G := by
  have h := c2_per_key_override "T" "D" "{major}.{minor}" "/v{major}_{minor}"
    (1, 0) false none none [exGreet10] [exGreet12P, exOnly10] exGreet10
    exGreet12G "/greet|GET" (1, 2) (by decide) (by decide) (by decide)
    (by decide) (by decide) (by decide)
  obtain ⟨p, hp⟩ := Option.isSome_iff_exists.mp h.1
  obtain ⟨sub, h1, h2⟩ := h.2 p hp
  exact ⟨p, sub, hp, h1, h2⟩

/-! Claim C3. -/

/-- C3: when `enable_latest` is true, exactly one additional
sub-application is built from the accumulated route set as it stands after
the highest version has been processed, mounted under the fixed prefix
`/latest`, its display version string equal to the highest version's
display string, and every route object in it identical to the one in the
highest version's sub-application. -/
theorem c3_latest_alias (t de vf pf : String) (dflt : Version)
    (rd : Option Version) (tags : Option (List Tag)) (routes : List Route)
    (hne : routes ≠ []) :
    ∃ p, VersionedFastAPI t de routes vf pf dflt true rd tags = some p ∧
      ∃ ms subL, p.mounts = ms ++ [("/latest", subL)] ∧
        ms.length = (sortedVersions (routes.map (resolvedVersion dflt))).length ∧
        ∃ pm, ms.getLast? = some pm ∧
          subL.routes = pm.2.routes ∧ subL.routeMap = pm.2.routeMap ∧
          subL.semver = pm.2.semver ∧
          ∃ vmax, ((groupRoutes dflt routes).map Prod.fst).getLast? = some vmax ∧
            subL.semver = render vf vmax ∧ pm.1 = render pf vmax := by
  obtain ⟨vmax, hv⟩ := groupRoutes_getLast?_isSome dflt routes hne
  refine ⟨_, vfa_true_eq t de routes vf pf dflt rd tags vmax hv, ?_⟩
  refine ⟨(vfaBuilt t de routes vf pf dflt rd tags).mounts,
    mkSubApp t de vf (vfaTags tags) vmax
      (vfaBuilt t de routes vf pf dflt rd tags).uniq, rfl, ?_, ?_⟩
  · rw [vfaBuilt, buildVersions_mounts_length, groupRoutes, List.length_map]
  · have hgne : groupRoutes dflt routes ≠ [] := by
      intro hc
      rw [hc] at hv
      simp at hv
    obtain ⟨vmax', hm', hl'⟩ := buildVersions_last t de vf pf (vfaTags tags) rd
      (groupRoutes dflt routes) [] hgne
    have he : vmax' = vmax := by
      rw [hm'] at hv
      exact Option.some.inj hv
    subst he
    exact ⟨(render pf vmax',
      mkSubApp t de vf (vfaTags tags) vmax'
        (vfaBuilt t de routes vf pf dflt rd tags).uniq),
      hl', rfl, rfl, rfl, vmax', hv, rfl, rfl⟩

/-- Witness for C3 at the concrete example routes. -/
theorem c3_latest_alias_witness :
    ∃ p, VersionedFastAPI "T" "D" exRoutes "{major}.{minor}" "/v{major}_{minor}"
        (1, 0) true none none = some p ∧
      ∃ ms subL, p.mounts = ms ++ [("/latest", subL)] ∧
        ms.length =
          (sortedVersions (exRoutes.map (resolvedVersion (1, 0)))).length ∧
        ∃ pm, ms.getLast? = some pm ∧
          subL.routes = pm.2.routes ∧ subL.routeMap = pm.2.routeMap ∧
          subL.semver = pm.2.semver ∧
          ∃ vmax,
            ((groupRoutes (1, 0) exRoutes).map Prod.fst).getLast? = some vmax ∧
            subL.semver = render "{major}.{minor}" vmax ∧
            pm.1 = render "/v{major}_{minor}" vmax :=
  c3_latest_alias "T" "D" "{major}.{minor}" "/v{major}_{minor}" (1, 0) none
    none exRoutes (by decide)

/-! Claim C4. -/

/-- C4: when `redirect_empty_to_version` equals a registered version, the
route objects of that version's accumulated set are additionally appended
unprefixed to the parent application's route table, so an unprefixed path
is served by the same route object as the prefixed path of the redirect
version. -/
theorem c4_redirect_alias (t de vf pf : String) (dflt : Version) (el : Bool)
    (tags : Option (List Tag)) (routes : List Route) (rv : Version)
    (hreg : ∃ r ∈ routes, resolvedVersion dflt r = rv) :
    (VersionedFastAPI t de routes vf pf dflt el (some rv) tags).isSome
        = true ∧
    ∀ p, VersionedFastAPI t de routes vf pf dflt el (some rv) tags = some p →
      ∃ sub, (render pf rv, sub) ∈ p.mounts ∧ p.rootRoutes = sub.routes := by
  constructor
  · obtain ⟨r, hr, _⟩ := hreg
    exact vfa_isSome t de routes vf pf dflt el (some rv) tags
      (List.ne_nil_of_mem hr)
  · intro p hp
    obtain ⟨extra, hme, hre⟩ :=
      vfa_mounts_shape t de routes vf pf dflt el (some rv) tags p hp
    have hexist : ∃ b, (rv, b) ∈ groupRoutes dflt routes :=
      ⟨bucketOf dflt routes rv, (mem_groupRoutes _ _ _).mpr ⟨hreg, rfl⟩⟩
    obtain ⟨sub, hsub, hroot⟩ := buildVersions_redirect t de vf pf
      (vfaTags tags) rv (groupRoutes dflt routes) []
      (pairwise_groupRoutes dflt routes) hexist
    have hsub' : (render pf rv, sub) ∈
        (vfaBuilt t de routes vf pf dflt (some rv) tags).mounts := hsub
    have hroot' : (vfaBuilt t de routes vf pf dflt (some rv) tags).rootRoutes
        = sub.routes := hroot
    refine ⟨sub, ?_, ?_⟩
    · rw [hme]
      exact List.mem_append.mpr (Or.inl hsub')
    · rw [hre]
      exact hroot'

/-- Witness for C4: with redirect version `(1, 0)` on the example routes,
the parent's unprefixed route table equals the `(1, 0)` sub-application's
route list. -/
theorem c4_redirect_alias_witness :
    ∃ p sub,
      VersionedFastAPI "T" "D" exRoutes "{major}.{minor}" "/v{major}_{minor}"
        (1, 0) false (some (1, 0)) none = some p ∧
      (render "/v{major}_{minor}" (1, 0), sub) ∈ p.mounts ∧
      p.rootRoutes = sub.routes := by
  have h := c4_redirect_alias "T" "D" "{major}.{minor}" "/v{major}_{minor}"
    (1, 0) false none exRoutes (1, 0) ⟨exGreet10, by decide, by decide⟩
  obtain ⟨p, hp⟩ := Option.isSome_iff_exists.mp h.1
  obtain ⟨sub, h1, h2⟩ := h.2 p hp
  exact ⟨p, sub, hp, h1, h2⟩

/-! Claim C6. -/

/-- Route fixture for C6: a single endpoint registered at version `(1, 0)`
while the redirect version is the unregistered `(2, 0)`. -/
def c6Route : Route := ⟨"/greet", ["GET"], true, [], some (1, 0), 0⟩

/-- Counterexample to C6: with a redirect version absent from the
registered versions, `VersionedFastAPI` does not fail at composition; it
returns an application, and that application has no unprefixed alias
routes. -/
theorem c6_counterexample :
    (VersionedFastAPI "T" "D" [c6Route] "{major}.{minor}" "/v{major}_{minor}"
        (1, 0) false (some (2, 0)) none).isSome = true ∧
    (VersionedFastAPI "T" "D" [c6Route] "{major}.{minor}" "/v{major}_{minor}"
        (1, 0) false (some (2, 0)) none).map ParentApp.rootRoutes
      = some [] := by
  exact ⟨by decide, by decide⟩

/-- C6 amended: if the configured redirect version is not present among the
registered versions, composition succeeds silently (no error) and the
parent application simply carries no unprefixed alias routes. -/
theorem c6_amended_silent (t de vf pf : String) (dflt : Version)
    (tags : Option (List Tag)) (routes : List Route) (rv : Version)
    (hnreg : ∀ r ∈ routes, resolvedVersion dflt r ≠ rv) :
    (VersionedFastAPI t de routes vf pf dflt false (some rv) tags).isSome
        = true ∧
    ∀ p, VersionedFastAPI t de routes vf pf dflt false (some rv) tags = some p →
      p.rootRoutes = [] := by
  constructor
  · rw [vfa_false_eq]
    rfl
  · intro p hp
    rw [vfa_false_eq] at hp
    cases Option.some.inj hp
    show (vfaBuilt t de routes vf pf dflt (some rv) tags).rootRoutes = []
    refine buildVersions_rootRoutes_nil t de vf pf (vfaTags tags) (some rv)
      (groupRoutes dflt routes) [] ?_
    intro q hq he
    obtain ⟨⟨r, hr, hre⟩, _⟩ := (mem_groupRoutes _ _ q).mp hq
    exact hnreg r hr (hre.trans (Option.some.inj he).symm)

/-- Witness for the amended C6 at the concrete fixture. -/
theorem c6_amended_silent_witness :
    ∃ p, VersionedFastAPI "T" "D" [c6Route] "{major}.{minor}"
        "/v{major}_{minor}" (1, 0) false (some (2, 0)) none = some p ∧
      p.rootRoutes = [] := by
  have h := c6_amended_silent "T" "D" "{major}.{minor}" "/v{major}_{minor}"
    (1, 0) none [c6Route] (2, 0) (by decide)
  obtain ⟨p, hp⟩ := Option.isSome_iff_exists.mp h.1
  exact ⟨p, hp, h.2 p hp⟩

/-! Claim C9. -/

/-- C9: if the input route collection is empty and `enable_latest` is
true, `VersionedFastAPI` fails during composition (the latest branch reads
the never-bound loop variable) instead of returning a parent application
with an empty `/latest` sub-application; with `enable_latest` false the
same empty input composes fine. -/
theorem c9_empty_latest_fails (t de vf pf : String) (dflt : Version)
    (rd : Option Version) (tags : Option (List Tag)) :
    VersionedFastAPI t de [] vf pf dflt true rd tags = none ∧
    (VersionedFastAPI t de [] vf pf dflt false rd tags).isSome = true := by
  constructor
  · exact vfa_true_none t de [] vf pf dflt rd tags rfl
  · rw [vfa_false_eq]
    rfl

/-! Claim C10. -/

theorem vfa_callerTags (t de : String) (routes : List Route) (vf pf : String)
    (dflt : Version) (el : Bool) (rd : Option Version)
    (tags : Option (List Tag)) (p : ParentApp)
    (hp : VersionedFastAPI t de routes vf pf dflt el rd tags = some p) :
    p.callerTagsAfter = tags.map (· ++ OPENAPI_TAGS_VERSIONED_ENDPOINTS) := by
  cases el with
  | false =>
    rw [vfa_false_eq] at hp
    cases Option.some.inj hp
    rfl
  | true =>
    cases hg : ((groupRoutes dflt routes).map Prod.fst).getLast? with
    | none =>
      rw [vfa_true_none t de routes vf pf dflt rd tags hg] at hp
      cases hp
    | some vmax =>
      rw [vfa_true_eq t de routes vf pf dflt rd tags vmax hg] at hp
      cases Option.some.inj hp
      rfl

/-- C10: a non-`None` `openapi_tags` argument is mutated in place by
appending the three built-in tag descriptors, so after composition the
caller's list is three entries longer than before, while a `None` argument
leaves no caller state touched. -/
theorem c10_caller_tags_mutated (t de vf pf : String) (routes : List Route)
    (dflt : Version) (el : Bool) (rd : Option Version) (l : List Tag) :
    (∀ p, VersionedFastAPI t de routes vf pf dflt el rd (some l) = some p →
      p.callerTagsAfter = some (l ++ OPENAPI_TAGS_VERSIONED_ENDPOINTS) ∧
      ∀ after, p.callerTagsAfter = some after →
        after.length = l.length + 3 ∧ l.length < after.length) ∧
    (∀ q, VersionedFastAPI t de routes vf pf dflt el rd none = some q →
      q.callerTagsAfter = none) := by
  constructor
  · intro p hp
    have h := vfa_callerTags t de routes vf pf dflt el rd (some l) p hp
    constructor
    · rw [h]
      rfl
    · intro after hafter
      rw [h] at hafter
      have he : l ++ OPENAPI_TAGS_VERSIONED_ENDPOINTS = after :=
        Option.some.inj hafter
      rw [← he, List.length_append]
      constructor
      · rfl
      · show l.length < l.length + 3
        omega
  · intro q hq
    exact vfa_callerTags t de routes vf pf dflt el rd none q hq

/-- Witness for C10: a caller catalog with one entry has four entries
after composition; the `None` argument stays untouched. -/
theorem c10_caller_tags_mutated_witness :
    ∃ p, VersionedFastAPI "T" "D" exRoutes "{major}.{minor}"
        "/v{major}_{minor}" (1, 0) false none (some [⟨"users", "ops"⟩])
      = some p ∧
      p.callerTagsAfter
        = some ([⟨"users", "ops"⟩] ++ OPENAPI_TAGS_VERSIONED_ENDPOINTS) ∧
      ∀ after, p.callerTagsAfter = some after → after.length = 4 := by
  obtain ⟨p, hp⟩ := Option.isSome_iff_exists.mp
    (by decide :
      (VersionedFastAPI "T" "D" exRoutes "{major}.{minor}" "/v{major}_{minor}"
        (1, 0) false none (some [⟨"users", "ops"⟩])).isSome = true)
  have h := (c10_caller_tags_mutated "T" "D" "{major}.{minor}"
    "/v{major}_{minor}" exRoutes (1, 0) false none [⟨"users", "ops"⟩]).1 p hp
  exact ⟨p, hp, h.1, fun a ha => (h.2 a ha).1⟩

/-! Claim C7. -/

theorem vfa_docEndpoints_handler (t de : String) (routes : List Route)
    (vf pf : String) (dflt : Version) (el : Bool) (rd : Option Version)
    (tags : Option (List Tag)) (p : ParentApp)
    (hp : VersionedFastAPI t de routes vf pf dflt el rd tags = some p) :
    ∀ d ∈ p.docEndpoints, d.handler = doc_endpoint_response := by
  cases el with
  | false =>
    rw [vfa_false_eq] at hp
    cases Option.some.inj hp
    intro d hd
    exact buildVersions_doc_handler t de vf pf (vfaTags tags) rd
      (groupRoutes dflt routes) [] d hd
  | true =>
    cases hg : ((groupRoutes dflt routes).map Prod.fst).getLast? with
    | none =>
      rw [vfa_true_none t de routes vf pf dflt rd tags hg] at hp
      cases hp
    | some vmax =>
      rw [vfa_true_eq t de routes vf pf dflt rd tags vmax hg] at hp
      cases Option.some.inj hp
      intro d hd
      rcases List.mem_append.mp hd with h1 | h2
      · exact buildVersions_doc_handler t de vf pf (vfaTags tags) rd
          (groupRoutes dflt routes) [] d h1
      · rw [List.mem_singleton.mp h2]
        rfl

/-- C7: the placeholder handler backing every synthesized directory entry
deterministically raises a fixed client error with status code in the 4xx
class and a fixed structured payload stating the endpoint exists only for
documentation; it never returns a success value. -/
theorem c7_doc_placeholder_error (t de vf pf : String) (routes : List Route)
    (dflt : Version) (el : Bool) (rd : Option Version)
    (tags : Option (List Tag)) (p : ParentApp)
    (hp : VersionedFastAPI t de routes vf pf dflt el rd tags = some p)
    (d : DocRoute) (hd : d ∈ p.docEndpoints) :
    d.handler = doc_endpoint_response ∧
    ∃ e, d.handler = Except.error e ∧ 400 ≤ e.status_code ∧
      e.status_code < 500 ∧
      e.detail_msg =
        "Endpoint only exits for documentation purposes. It has no logic." ∧
      ∀ u, d.handler ≠ Except.ok u := by
  have hh : d.handler = doc_endpoint_response :=
    vfa_docEndpoints_handler t de routes vf pf dflt el rd tags p hp d hd
  refine ⟨hh,
    ⟨400, "Endpoint only exits for documentation purposes. It has no logic."⟩,
    by rw [hh]; rfl, by decide, by decide, rfl, ?_⟩
  intro u hc
  rw [hh] at hc
  cases hc

/-- The first placeholder of the example composition, used by the C7
witness. -/
def exDoc : DocRoute :=
  ⟨"/v1_0/openapi.json", "1.0", ["Versions"], "", doc_endpoint_response⟩

/-- Witness for C7 at a concrete composition and placeholder. -/
theorem c7_doc_placeholder_error_witness :
    ∃ p, VersionedFastAPI "T" "D" exRoutes "{major}.{minor}"
        "/v{major}_{minor}" (1, 0) true none none = some p ∧
      exDoc ∈ p.docEndpoints ∧
      exDoc.handler = doc_endpoint_response ∧
      ∃ e, exDoc.handler = Except.error e ∧ 400 ≤ e.status_code ∧
        e.status_code < 500 ∧
        e.detail_msg =
          "Endpoint only exits for documentation purposes. It has no logic." ∧
        ∀ u, exDoc.handler ≠ Except.ok u := by
  obtain ⟨p, hp⟩ := Option.isSome_iff_exists.mp
    (by decide :
      (VersionedFastAPI "T" "D" exRoutes "{major}.{minor}" "/v{major}_{minor}"
        (1, 0) true none none).isSome = true)
  have hd : exDoc ∈ p.docEndpoints := by
    have h2 : (VersionedFastAPI "T" "D" exRoutes "{major}.{minor}"
        "/v{major}_{minor}" (1, 0) true none none).map
          (fun q => decide (exDoc ∈ q.docEndpoints)) = some true := by decide
    rw [hp] at h2
    simpa using Option.some.inj h2
  have h := c7_doc_placeholder_error "T" "D" "{major}.{minor}"
    "/v{major}_{minor}" exRoutes (1, 0) true none none p hp exDoc hd
  exact ⟨p, hp, hd, h.1, h.2⟩

/-! Claim C5. -/

/-- Tag fixture for C5. -/
def c5Tag : Tag := ⟨"users", "Operations with users"⟩

/-- First route carrying the `users` tag. -/
def c5r1 : Route := ⟨"/a", ["GET"], true, ["users"], none, 1⟩

/-- Second route carrying the `users` tag. -/
def c5r2 : Route := ⟨"/b", ["GET"], true, ["users"], none, 2⟩

/-- Counterexample to C5: a catalog tag matched by two routes is emitted
twice by one filtering pass and four times by a second pass, so
`remove_non_present_openapi_tags` is not idempotent. -/
theorem c5_counterexample :
    remove_non_present_openapi_tags routeTagsOf
        (remove_non_present_openapi_tags routeTagsOf [c5Tag] [c5r1, c5r2])
        [c5r1, c5r2]
      ≠ remove_non_present_openapi_tags routeTagsOf [c5Tag] [c5r1, c5r2] := by
  decide

/-- C5 amended: tag filtering is idempotent provided every catalog tag is
matched by at most one route of the route set; in general the filter emits
one copy of a tag per matching route, so a tag matching two or more routes
is duplicated further by each additional pass. -/
theorem c5_amended_idempotent_of_unique (tags : List Tag)
    (routes : List Route)
    (h : ∀ t ∈ tags,
      (routes.filter (tagMatchesRoute routeTagsOf t)).length ≤ 1) :
    remove_non_present_openapi_tags routeTagsOf
        (remove_non_present_openapi_tags routeTagsOf tags routes) routes
      = remove_non_present_openapi_tags routeTagsOf tags routes := by
  induction tags with
  | nil => rfl
  | cons t ts ih =>
    have hts := ih (fun t' ht' => h t' (List.mem_cons_of_mem _ ht'))
    have hsplit : remove_non_present_openapi_tags routeTagsOf (t :: ts) routes
        = ((routes.filter (tagMatchesRoute routeTagsOf t)).map (fun _ => t))
          ++ remove_non_present_openapi_tags routeTagsOf ts routes := by
      simp [remove_non_present_openapi_tags]
    have happ : ∀ (A B : List Tag),
        remove_non_present_openapi_tags routeTagsOf (A ++ B) routes
          = remove_non_present_openapi_tags routeTagsOf A routes
            ++ remove_non_present_openapi_tags routeTagsOf B routes := by
      intro A B
      simp [remove_non_present_openapi_tags]
    rw [hsplit, happ, hts]
    congr 1
    cases hn : routes.filter (tagMatchesRoute routeTagsOf t) with
    | nil => simp [remove_non_present_openapi_tags]
    | cons x xs =>
      have h1 := h t (List.mem_cons_self _ _)
      rw [hn] at h1
      simp only [List.length_cons] at h1
      have hx : xs = [] := List.eq_nil_of_length_eq_zero (by omega)
      subst hx
      simp [remove_non_present_openapi_tags, hn]

/-- Witness for the amended C5: with a single matching route, filtering
twice equals filtering once. -/
theorem c5_amended_idempotent_of_unique_witness :
    remove_non_present_openapi_tags routeTagsOf
        (remove_non_present_openapi_tags routeTagsOf [c5Tag] [c5r1]) [c5r1]
      = remove_non_present_openapi_tags routeTagsOf [c5Tag] [c5r1] :=
  c5_amended_idempotent_of_unique [c5Tag] [c5r1] (by decide)

/-! Claim C8. -/

/-- C8: the parent application's schema generator computes the directory
document at most once: the first call builds it from only the synthesized
placeholder endpoints and the filtered tag catalog and stores it; every
subsequent call returns the identical stored document without
recomputing. -/
theorem c8_schema_cached (p : ParentApp) (pv pd : String) :
    (custom_openapi_for_parent_app p pv pd none).1 =
      get_openapi p.title pv (parentDescription pd) p.docEndpoints
        (remove_non_present_openapi_tags docTagsOf p.openapiTags
          p.docEndpoints) ∧
    (custom_openapi_for_parent_app p pv pd none).2 =
      some (custom_openapi_for_parent_app p pv pd none).1 ∧
    (custom_openapi_for_parent_app p pv pd
        (custom_openapi_for_parent_app p pv pd none).2).1 =
      (custom_openapi_for_parent_app p pv pd none).1 ∧
    (custom_openapi_for_parent_app p pv pd
        (custom_openapi_for_parent_app p pv pd none).2).2 =
      (custom_openapi_for_parent_app p pv pd none).2 ∧
    ∀ s, custom_openapi_for_parent_app p pv pd (some s) = (s, some s) :=
  ⟨rfl, rfl, rfl, rfl, fun _ => rfl⟩
